import Mathlib

set_option linter.unusedVariables false

/-!
Shallow embedding of the audio-capture backend (`src/backend.rs`) of
`pipewire_output_listen_train`, together with proofs about its data
structures: the `Matrix` snapshot type and its chunking iterator, the
`MatrixFixed` per-channel ring buffer, the rolling spectral buffer, the
Blackman–Harris window, the deinterleaving loop of the process callback,
and the event relay of `listen_pw`.

Samples are `f32` in the source; every property verified about the
containers is purely structural (lengths, ordering, which events are
emitted), so the element type is kept polymorphic and is instantiated
with `ℚ` or `ℤ` in concrete statements.  The Blackman–Harris window,
whose claim is about the arithmetic form of the weight, is embedded
over `ℝ`.  `VecDeque` is modelled as a list with its front at the head.
-/

namespace Backend

/-! ### `slice::chunks` and the `MatrixChunks` iterator -/

/-- Rust's `slice::chunks(s)`, as used by `Matrix::chunks`
(`backend.rs:189`): consecutive chunks of `s` elements each; the final
chunk is shorter when `s` does not divide the length.  Rust panics on
`s = 0`; that case is outside the modelled domain (we return `[]` there
only to keep the function total). -/
def rustChunks (s : ℕ) (l : List α) : List (List α) :=
  match l with
  | [] => []
  | x :: xs =>
    if h : s = 0 then []
    else (x :: xs).take s :: rustChunks s ((x :: xs).drop s)
termination_by l.length
decreasing_by simp; omega

/-- One step of the `MatrixChunks` iterator (`MatrixChunks::next`,
`backend.rs:166-173`): collect the next chunk of every channel in order,
or stop (`None`) as soon as one channel's chunk iterator is exhausted. -/
def matrixNext : List (List β) → Option (List β × List (List β))
  | [] => some ([], [])
  | l :: ls =>
    match l with
    | [] => none
    | x :: xs =>
      match matrixNext ls with
      | none => none
      | some (hd, tl) => some (x :: hd, xs :: tl)

/-- Drive the `MatrixChunks` iterator for at most `fuel` steps, collecting
every emitted item.  `fuel` is a termination device only: `Matrix.chunks`
passes enough fuel to exhaust the iterator whenever the matrix has at
least one channel (for a zero-channel matrix the Rust iterator never
terminates, and no claim depends on that case). -/
def matrixChunksAux : ℕ → List (List β) → List (List β)
  | 0, _ => []
  | fuel + 1, state =>
    match matrixNext state with
    | none => []
    | some (item, state') => item :: matrixChunksAux fuel state'

/-- A snapshot matrix (`Matrix<T>`, `backend.rs:146-152`): the list of
per-channel sample rows (`inner: Vec<Vec<T>>`). -/
abbrev Matrix (α : Type) : Type := List (List α)

/-- `Matrix::channel()` (`backend.rs:183`). -/
def Matrix.channel (m : Matrix α) : ℕ := m.length

/-- `Matrix::chunks(chunk_size)` (`backend.rs:186-192`): one
`slice::chunks` iterator per channel, zipped by `MatrixChunks::next`.
The emitted sequence is finite once the matrix has at least one channel;
the fuel is the first channel's chunk count, an upper bound on the
number of emitted items. -/
def Matrix.chunks (m : Matrix α) (s : ℕ) : List (Matrix α) :=
  matrixChunksAux
    (match m with
     | [] => 0
     | c :: _ => (rustChunks s c).length)
    (m.map (rustChunks s))

/-! ### `MatrixFixed`: the per-channel ring buffer -/

/-- `MatrixFixed<T>` (`backend.rs:104-112`): one fixed-capacity sequence
per channel. -/
structure MatrixFixed (α : Type) where
  inner : List (List α)
  len : ℕ
  channel : ℕ

/-- `MatrixFixed::new(len, channel)` (`backend.rs:118-124`): `channel`
rows of `len` default elements each (`T: Default` is modelled by
`Inhabited`). -/
def MatrixFixed.new (α : Type) [Inhabited α] (len channel : ℕ) : MatrixFixed α :=
  ⟨List.replicate channel (List.replicate len default), len, channel⟩

/-- One `push_back` + `pop_front` step on a `VecDeque`
(`backend.rs:139-140` and, for the spectral buffer, `backend.rs:69-70`). -/
def pushEvict (q : List α) (d : α) : List α := (q ++ [d]).tail

/-- The body of the per-chunk loop of `MatrixFixed::append`
(`backend.rs:138-141`): `chunk.iter().zip(&mut self.inner)` pairs the
chunk's per-channel one-sample slices with the channel deques and updates
exactly the zipped prefix (`data[0]` is the slice's single sample,
modelled by `headD default`). -/
def applyChunk [Inhabited α] : List (List α) → List (List α) → List (List α)
  | [], inner => inner
  | _ :: _, [] => []
  | d :: ds, q :: qs => pushEvict q (d.headD default) :: applyChunk ds qs

/-- `MatrixFixed::append(matrix)` (`backend.rs:134-143`).  The
`assert_eq!(matrix.channel(), self.channel())` panic is modelled by
returning `none`; the Rust panic happens before any channel is touched,
so `none` carries no modified state. -/
def MatrixFixed.append [Inhabited α] (self : MatrixFixed α) (matrix : Matrix α) :
    Option (MatrixFixed α) :=
  if Matrix.channel matrix = self.channel then
    some { self with
      inner := (Matrix.chunks matrix 1).foldl (fun inn ch => applyChunk ch inn)
        self.inner }
  else none

/-- Appending a sequence of snapshots in order; `none` as soon as one
append panics. -/
def MatrixFixed.appendMany [Inhabited α] (self : MatrixFixed α)
    (ms : List (Matrix α)) : Option (MatrixFixed α) :=
  ms.foldlM MatrixFixed.append self

/-- Per-channel net effect of one `MatrixFixed::append`: each channel
receives its whole row of new samples at the back and loses as many from
the front.  Proved below to agree with the chunk-by-chunk loop of the
source whenever all rows of the snapshot have equal length. -/
def applyNews [Inhabited α] : List (List α) → List (List α) → List (List α)
  | [], inner => inner
  | _ :: _, [] => []
  | news :: ms, q :: qs => (q ++ news).drop news.length :: applyNews ms qs

/-! ### The rolling spectral buffer and the events -/

/-- `FFT_SIZE` (`backend.rs:16`). -/
def FFT_SIZE : ℕ := 8192

/-- `UserData::append_spectrum` (`backend.rs:67-72`): for each incoming
sample, `push_back` then `pop_front` on the rolling deque. -/
def append_spectrum (spectrum_data : List α) (datas : List α) : List α :=
  datas.foldl pushEvict spectrum_data

/-- The `spectrum_data` field as constructed in `connect_inner`
(`backend.rs:211`): `VecDeque::with_capacity(FFT_SIZE)` allocates
capacity but holds no elements, so the initial rolling buffer is the
empty sequence. -/
def initial_spectrum_data : List ℚ := []

/-- `PwEvent` (`backend.rs:33-39`); `AudioInfo`'s two `u32` fields are
inlined as the two naturals of `FormatChange`. -/
inductive PwEvent (α : Type) where
  | FormatChange (rate channels : ℕ)
  | DataNew (m : Matrix α)
  | Spectrum (data : List α)
  | PwErr
deriving DecidableEq

/-- The tail of the process callback (`backend.rs:300-311`) once a batch
has been deinterleaved into `matrix_inner`: channel 0 is fed to
`append_spectrum`, then every item of `matrix.chunks(80)` is sent as one
`DataNew` event.  The returned pair is (updated rolling buffer, events
sent).  No other event is produced there: in particular the callback
never calls `send_spectrum`. -/
def processStep (spectrum_data : List α) (matrix_inner : Matrix α) :
    List α × List (PwEvent α) :=
  (append_spectrum spectrum_data (matrix_inner.getD 0 []),
   (Matrix.chunks matrix_inner 80).map (fun d => PwEvent.DataNew d))

/-- The consumer-facing sequence produced by the relay loop of
`listen_pw` (`backend.rs:93-99`): every event received from the capture
thread is forwarded in order; when `recv` observes the channel closed the
relay sends one final `PwErr` and breaks. -/
def bridge (produced : List (PwEvent α)) : List (PwEvent α) :=
  produced ++ [PwEvent.PwErr]

/-- What the capture thread sends when `connect_inner` fails at
connection/registration, before producing anything (`connect`,
`backend.rs:195-199`): a single `PwErr`, after which the thread ends and
the channel closes. -/
def connectFailureEvents : List (PwEvent ℚ) := [PwEvent.PwErr]

/-! ### The deinterleave loop of the process callback -/

/-- Rust's `(start..stop).step_by(step)` as used by the deinterleave loop
(`backend.rs:292`): the indices `start, start+step, …` below `stop`.
Rust panics on `step = 0`; that case is outside the modelled domain
(`[]`, kept total). -/
def stepBy (start stop step : ℕ) : List ℕ :=
  if h : start < stop ∧ step ≠ 0 then start :: stepBy (start + step) stop step
  else []
termination_by stop - start
decreasing_by omega

/-! ### The Blackman–Harris window -/

open Real in
/-- The weight computed in the loop body of `apply_blackman_harris`
(`backend.rs:55-61`), with `a.mul_add(b, c) = a * b + c` unfolded with
exactly the nesting of the source. -/
noncomputable def windowWeight (k : ℝ) : ℝ :=
  0.01168 * (-Real.cos (6 * π * k)) +
    (0.14128 * Real.cos (4 * π * k) +
      (0.48829 * (-Real.cos (2 * π * k)) + 0.35875))

/-- `apply_blackman_harris` (`backend.rs:47-64`):
`n = block.len().saturating_sub(1)` cast to float; if `n ≤ 0` return the
block unchanged, otherwise multiply sample `i` by the window weight at
`k = i / n`. -/
noncomputable def apply_blackman_harris (block : List ℝ) : List ℝ :=
  let n : ℝ := ((block.length - 1 : ℕ) : ℝ)
  if n ≤ 0 then block
  else block.mapIdx (fun i x => x * windowWeight ((i : ℝ) / n))

/-! ## Lemmas: `rustChunks` -/

theorem ceil_div_step (s d : ℕ) (hs : s ≠ 0) (hd : 1 ≤ d) :
    (d - s + s - 1) / s + 1 = (d + s - 1) / s := by
  have h1 : d + s - 1 = (d - 1) + s := by omega
  rw [h1, Nat.add_div_right _ (Nat.pos_of_ne_zero hs)]
  rcases le_or_lt d s with h | h
  · have h2 : d - s + s - 1 = s - 1 := by omega
    rw [h2, Nat.div_eq_of_lt (by omega), Nat.div_eq_of_lt (by omega)]
  · have h2 : d - s + s - 1 = d - 1 := by omega
    rw [h2]

@[simp]
theorem rustChunks_nil (s : ℕ) : rustChunks s ([] : List α) = [] := by
  rw [rustChunks]

theorem rustChunks_cons (s : ℕ) (hs : s ≠ 0) (x : α) (xs : List α) :
    rustChunks s (x :: xs) = (x :: xs).take s :: rustChunks s ((x :: xs).drop s) := by
  rw [rustChunks]
  simp [hs]

/-- `slice::chunks(s)` on a slice of length `L` yields `⌈L/s⌉` chunks. -/
theorem rustChunks_length (s : ℕ) (hs : s ≠ 0) :
    ∀ l : List α, (rustChunks s l).length = (l.length + s - 1) / s
  | [] => by
    rw [rustChunks_nil]
    simp [Nat.div_eq_of_lt (show s - 1 < s by omega)]
  | x :: xs => by
    rw [rustChunks_cons s hs, List.length_cons,
      rustChunks_length s hs ((x :: xs).drop s), List.length_drop, List.length_cons]
    exact ceil_div_step s (xs.length + 1) hs (by omega)
termination_by l => l.length
decreasing_by simp; omega

/-- The `i`-th chunk of `slice::chunks(s)` is `l[s*i .. s*i+s]`. -/
theorem rustChunks_getD (s : ℕ) (hs : s ≠ 0) :
    ∀ (l : List α) (i : ℕ), (rustChunks s l).getD i [] = (l.drop (s * i)).take s
  | [], i => by simp
  | x :: xs, 0 => by
    rw [rustChunks_cons s hs]
    simp
  | x :: xs, i + 1 => by
    rw [rustChunks_cons s hs, List.getD_cons_succ,
      rustChunks_getD s hs ((x :: xs).drop s) i, List.drop_drop]
    congr 2
    ring
termination_by l => l.length
decreasing_by all_goals (simp; omega)

/-- Concatenating the chunks of `slice::chunks(s)` gives back the slice:
no element is dropped or duplicated, the trailing partial chunk included. -/
theorem rustChunks_flatten (s : ℕ) (hs : s ≠ 0) :
    ∀ l : List α, (rustChunks s l).flatten = l
  | [] => by simp
  | x :: xs => by
    rw [rustChunks_cons s hs, List.flatten_cons,
      rustChunks_flatten s hs ((x :: xs).drop s)]
    exact List.take_append_drop s (x :: xs)
termination_by l => l.length
decreasing_by simp; omega

/-! ## Lemmas: closed form of the zipped chunk iterator -/

theorem getD_zero_headD (t : List β) (d : β) : t.getD 0 d = t.headD d := by
  cases t <;> rfl

theorem getD_succ_tail (t : List β) (i : ℕ) (d : β) :
    t.getD (i + 1) d = t.tail.getD i d := by
  cases t <;> rfl

/-- When every channel still has a chunk, `MatrixChunks::next` emits the
list of channel heads and leaves the list of channel tails. -/
theorem matrixNext_some (d : β) :
    ∀ (state : List (List β)), (∀ t ∈ state, t ≠ []) →
      matrixNext state = some (state.map (fun t => t.headD d), state.map List.tail)
  | [], _ => rfl
  | l :: ls, h => by
    obtain ⟨x, xs, rfl⟩ : ∃ x xs, l = x :: xs := by
      cases l with
      | nil => exact absurd rfl (h [] (by simp))
      | cons a as => exact ⟨a, as, rfl⟩
    simp only [matrixNext, matrixNext_some d ls (fun t ht => h t (by simp [ht]))]
    simp

/-- When every channel holds exactly `n` chunks, the iterator emits
exactly `n` items, the `i`-th being the list of the channels' `i`-th
chunks. -/
theorem matrixChunksAux_closed (d : β) :
    ∀ (n fuel : ℕ) (state : List (List β)), state ≠ [] →
      (∀ t ∈ state, t.length = n) → n ≤ fuel →
      matrixChunksAux fuel state =
        (List.range n).map (fun i => state.map (fun t => t.getD i d)) := by
  intro n
  induction n with
  | zero =>
    intro fuel state hne hall _
    obtain ⟨t, ts, rfl⟩ : ∃ t ts, state = t :: ts := by
      cases state with
      | nil => exact absurd rfl hne
      | cons a as => exact ⟨a, as, rfl⟩
    have ht : t = [] := List.length_eq_zero.mp (hall t (by simp))
    subst ht
    cases fuel with
    | zero => rfl
    | succ f => rfl
  | succ n ih =>
    intro fuel state hne hall hfuel
    cases fuel with
    | zero => omega
    | succ f =>
      have hne' : ∀ t ∈ state, t ≠ [] := fun t ht h0 => by
        have hlen := hall t ht
        rw [h0] at hlen
        simp at hlen
      have htails_len : ∀ t ∈ state.map List.tail, t.length = n := by
        intro t ht
        simp only [List.mem_map] at ht
        obtain ⟨u, hu, rfl⟩ := ht
        have hu' := hall u hu
        cases u with
        | nil => simp at hu'
        | cons a as => simpa using hu'
      have htne : state.map List.tail ≠ [] := by
        cases state with
        | nil => exact absurd rfl hne
        | cons a as => simp
      simp only [matrixChunksAux, matrixNext_some d state hne']
      rw [ih f (state.map List.tail) htne htails_len (by omega),
        List.range_succ_eq_map]
      simp only [List.map_cons, List.map_map]
      congr 1
      · congr 1
        funext t
        rw [getD_zero_headD]
      · congr 1
        funext i
        simp only [Function.comp]
        congr 1
        funext t
        rw [getD_succ_tail]
        rfl

/-- Closed form of `Matrix::chunks(s)` for a matrix with at least one
channel, all channels of length `L`: it emits `⌈L/s⌉` sub-snapshots, the
`i`-th being the list of the channels' `i`-th `slice::chunks` chunks. -/
theorem Matrix.chunks_closed (m : Matrix α) (s L : ℕ) (hs : s ≠ 0) (hm : m ≠ [])
    (hL : ∀ c ∈ m, c.length = L) :
    Matrix.chunks m s =
      (List.range ((L + s - 1) / s)).map
        (fun i => m.map (fun c => (rustChunks s c).getD i [])) := by
  obtain ⟨c, cs, rfl⟩ : ∃ c cs, m = c :: cs := by
    cases m with
    | nil => exact absurd rfl hm
    | cons a as => exact ⟨a, as, rfl⟩
  have hfuel : (rustChunks s c).length = (L + s - 1) / s := by
    rw [rustChunks_length s hs, hL c (by simp)]
  have hall : ∀ t ∈ (c :: cs).map (rustChunks s), t.length = (L + s - 1) / s := by
    intro t ht
    simp only [List.mem_map] at ht
    obtain ⟨u, hu, rfl⟩ := ht
    rw [rustChunks_length s hs, hL u hu]
  unfold Matrix.chunks
  rw [matrixChunksAux_closed ([] : List α) ((L + s - 1) / s) _ _ (by simp) hall
    (by exact hfuel.ge)]
  simp [List.map_map]

/-! ## Lemmas: arithmetic of chunk counts -/

theorem mod_eq_sub_mul_div (L s : ℕ) : L % s = L - s * (L / s) := by
  have h := Nat.div_add_mod L s
  generalize s * (L / s) = A at h ⊢
  omega

theorem ceil_helper (s q r : ℕ) (hs : 0 < s) (h1 : 1 ≤ r) (h2 : r < s) :
    (s * q + r + s - 1) / s = q + 1 := by
  have e1 : s * q + r + s - 1 = s * q + (r - 1) + s := by
    generalize s * q = A
    omega
  rw [e1, Nat.add_div_right _ hs, Nat.mul_add_div hs,
    Nat.div_eq_of_lt (show r - 1 < s by omega), Nat.add_zero]

theorem ceil_helper_exact (s q : ℕ) (hs : 0 < s) (h1 : 1 ≤ q) :
    (s * q + s - 1) / s = q := by
  have e2 : s * q = s * (q - 1) + s := by
    cases q with
    | zero => omega
    | succ p => simp [Nat.mul_succ]
  have e1 : s * q + s - 1 = s * (q - 1) + (s - 1) + s := by
    generalize hA : s * (q - 1) = A at e2 ⊢
    omega
  rw [e1, Nat.add_div_right _ hs, Nat.mul_add_div hs,
    Nat.div_eq_of_lt (show s - 1 < s by omega), Nat.add_zero]
  omega

theorem ceil_div_of_mod_ne (L s : ℕ) (hs : s ≠ 0) (hr : L % s ≠ 0) :
    (L + s - 1) / s = L / s + 1 := by
  have hpos : 0 < s := Nat.pos_of_ne_zero hs
  have h : L = s * (L / s) + L % s := (Nat.div_add_mod L s).symm
  conv_lhs => rw [h]
  exact ceil_helper s (L / s) (L % s) hpos (by omega) (Nat.mod_lt _ hpos)

theorem ceil_div_of_mod_eq (L s : ℕ) (hs : s ≠ 0) (hr : L % s = 0) (hL : 1 ≤ L / s) :
    (L + s - 1) / s = L / s := by
  have hpos : 0 < s := Nat.pos_of_ne_zero hs
  have hqL : L = s * (L / s) := by
    have h := (Nat.div_add_mod L s).symm
    generalize s * (L / s) = A at h ⊢
    omega
  have h2 := ceil_helper_exact s (L / s) hpos hL
  rw [← hqL] at h2
  exact h2

theorem mul_succ_le_of_lt_div (L s i : ℕ) (hi : i < L / s) : s * (i + 1) ≤ L :=
  le_trans (Nat.mul_le_mul_left s hi) (Nat.mul_div_le L s)

/-! ## Lemmas: `range`/`getD` bookkeeping -/

theorem range_map_getD (K : List β) (d : β) :
    (List.range K.length).map (fun i => K.getD i d) = K := by
  induction K with
  | nil => rfl
  | cons x xs ih =>
    rw [List.length_cons, List.range_succ_eq_map]
    simp only [List.map_cons, List.map_map]
    congr 1

theorem getD_map_of_lt (f : List α → β) (m : Matrix α) (j : ℕ) (hj : j < m.length)
    (d : β) (d' : List α) : (m.map f).getD j d = f (m.getD j d') := by
  rw [List.getD_eq_getElem _ _ (by simpa using hj), List.getElem_map,
    List.getD_eq_getElem _ _ hj]

/-! ## C1: what `Matrix::chunks` actually emits -/

/-- C1, counterexample: on the one-channel snapshot `[[0,0,0]]` with chunk
size 2 the claim predicts exactly `⌊3/2⌋ = 1` sub-snapshot, but
`Matrix::chunks` emits 2 of them — `slice::chunks` produces the trailing
partial chunk, so enumeration does not stop at `⌊L/s⌋`. -/
theorem c1_counterexample :
    ¬ (Matrix.chunks ([[0, 0, 0]] : Matrix ℤ) 2).length = 3 / 2 := by
  rw [Matrix.chunks_closed ([[0, 0, 0]] : Matrix ℤ) 2 3 (by decide) (by simp)
    (by decide)]
  simp

/-- C1, amended: for a snapshot with at least one channel, all channels of
per-channel length `L`, and chunk size `s ≥ 1`, `Matrix::chunks(s)` yields
exactly `⌈L/s⌉` sub-snapshots; each of the first `⌊L/s⌋` has per-channel
size `s`, and when `L` is not a multiple of `s` a trailing partial
sub-snapshot of per-channel size `L % s` is also produced. -/
theorem c1_amended (m : Matrix α) (s L : ℕ) (hs : s ≠ 0) (hm : m ≠ [])
    (hL : ∀ c ∈ m, c.length = L) :
    (Matrix.chunks m s).length = (L + s - 1) / s ∧
    (∀ i, i < L / s → ∀ ch ∈ (Matrix.chunks m s).getD i [], ch.length = s) ∧
    (L % s ≠ 0 → ∀ ch ∈ (Matrix.chunks m s).getD (L / s) [], ch.length = L % s) := by
  rw [Matrix.chunks_closed m s L hs hm hL]
  refine ⟨by simp, ?_, ?_⟩
  · intro i hi ch hch
    have hiN : i < (L + s - 1) / s := by
      rcases Nat.eq_zero_or_pos (L % s) with h0 | h0
      · rw [ceil_div_of_mod_eq L s hs h0 (by omega)]
        exact hi
      · rw [ceil_div_of_mod_ne L s hs (by omega)]
        omega
    rw [List.getD_eq_getElem _ _ (by simpa using hiN), List.getElem_map,
      List.getElem_range] at hch
    simp only [List.mem_map] at hch
    obtain ⟨c, hc, rfl⟩ := hch
    rw [rustChunks_getD s hs, List.length_take, List.length_drop, hL c hc]
    have h1 := mul_succ_le_of_lt_div L s i hi
    have h2 := Nat.mul_succ s i
    generalize s * (i + 1) = A at h1 h2
    generalize s * i = B at h2 ⊢
    omega
  · intro hr ch hch
    have hiN : L / s < (L + s - 1) / s := by
      rw [ceil_div_of_mod_ne L s hs hr]
      omega
    rw [List.getD_eq_getElem _ _ (by simpa using hiN), List.getElem_map,
      List.getElem_range] at hch
    simp only [List.mem_map] at hch
    obtain ⟨c, hc, rfl⟩ := hch
    rw [rustChunks_getD s hs, List.length_take, List.length_drop, hL c hc]
    have h1 := mod_eq_sub_mul_div L s
    have h2 : L % s < s := Nat.mod_lt _ (Nat.pos_of_ne_zero hs)
    generalize s * (L / s) = A at h1 ⊢
    omega

/-- C1, witness: a concrete instance of the amended count, `L = 3`,
`s = 2`, one channel: `⌈3/2⌉ = 2` sub-snapshots. -/
theorem c1_witness :
    (Matrix.chunks ([[0, 0, 0]] : Matrix ℤ) 2).length = (3 + 2 - 1) / 2 :=
  (c1_amended ([[0, 0, 0]] : Matrix ℤ) 2 3 (by decide) (by simp) (by decide)).1

/-! ## C9: chunking loses nothing -/

/-- C9: for a snapshot whose channels all have length `L` and any chunk
size `s ≥ 1`, concatenating per channel the sub-snapshots emitted by
`Matrix::chunks(s)` in emission order reconstructs that channel's
original sample row exactly — nothing is dropped or duplicated, the
trailing partial chunk included. -/
theorem c9_chunks_concat (m : Matrix α) (s L : ℕ) (hs : s ≠ 0)
    (hL : ∀ c ∈ m, c.length = L) (j : ℕ) (hj : j < m.length) :
    ((Matrix.chunks m s).map (fun item => item.getD j [])).flatten = m.getD j [] := by
  have hm : m ≠ [] := by
    intro h
    subst h
    simp at hj
  rw [Matrix.chunks_closed m s L hs hm hL, List.map_map]
  have hget : ∀ i : ℕ,
      ((fun item : Matrix α => item.getD j []) ∘
        fun i => m.map (fun c => (rustChunks s c).getD i [])) i
      = (rustChunks s (m.getD j [])).getD i [] := by
    intro i
    exact getD_map_of_lt _ m j hj [] []
  rw [funext hget]
  have hK : (m.getD j []).length = L := hL _ (by
    rw [List.getD_eq_getElem _ _ hj]
    exact List.getElem_mem hj)
  have hN : (L + s - 1) / s = (rustChunks s (m.getD j [])).length := by
    rw [rustChunks_length s hs, hK]
  rw [hN, range_map_getD, rustChunks_flatten s hs]

/-- C9, witness: concrete channel `[1,2,3]`, chunk size 2: the two emitted
chunks `[1,2]` and `[3]` concatenate back to the original. -/
theorem c9_witness :
    ((Matrix.chunks ([[1, 2, 3]] : Matrix ℤ) 2).map
      (fun item => item.getD 0 [])).flatten = ([[1, 2, 3]] : Matrix ℤ).getD 0 [] :=
  c9_chunks_concat ([[1, 2, 3]] : Matrix ℤ) 2 3 (by decide) (by decide) 0 (by decide)

/-! ## Lemmas: the ring buffer `MatrixFixed` -/

theorem pushEvict_length (q : List α) (d : α) : (pushEvict q d).length = q.length := by
  simp [pushEvict]

theorem applyChunk_mem_length [Inhabited α] (L : ℕ) :
    ∀ (ds inner : List (List α)), (∀ q ∈ inner, q.length = L) →
      ∀ q ∈ applyChunk ds inner, q.length = L
  | [], inner => fun h => h
  | _ :: _, [] => fun h q hq => by simp [applyChunk] at hq
  | d :: ds, q0 :: qs => fun h q hq => by
    simp only [applyChunk, List.mem_cons] at hq
    rcases hq with rfl | hq
    · rw [pushEvict_length]
      exact h q0 (by simp)
    · exact applyChunk_mem_length L ds qs (fun u hu => h u (by simp [hu])) q hq

theorem foldl_applyChunk_mem_length [Inhabited α] (L : ℕ) :
    ∀ (cl : List (List (List α))) (inner : List (List α)),
      (∀ q ∈ inner, q.length = L) →
      ∀ q ∈ cl.foldl (fun inn ch => applyChunk ch inn) inner, q.length = L
  | [], inner => fun h => h
  | ch :: rest, inner => fun h =>
      foldl_applyChunk_mem_length L rest (applyChunk ch inner)
        (applyChunk_mem_length L ch inner h)

/-- The net state change of one successful `MatrixFixed::append`. -/
theorem MatrixFixed.append_eq_some [Inhabited α] (self : MatrixFixed α)
    (matrix : Matrix α) (h : Matrix.channel matrix = self.channel) :
    self.append matrix = some { self with
      inner := (Matrix.chunks matrix 1).foldl (fun inn ch => applyChunk ch inn)
        self.inner } := by
  simp [MatrixFixed.append, h]

theorem appendMany_inv [Inhabited α] (len c : ℕ) :
    ∀ (ms : List (Matrix α)) (self : MatrixFixed α), self.channel = c →
      (∀ q ∈ self.inner, q.length = len) → (∀ m ∈ ms, Matrix.channel m = c) →
      ∃ r, self.appendMany ms = some r ∧ r.channel = c ∧
        ∀ q ∈ r.inner, q.length = len
  | [], self => fun h1 h2 _ => ⟨self, rfl, h1, h2⟩
  | m :: ms, self => fun h1 h2 h3 => by
    have hch : Matrix.channel m = self.channel := by
      rw [h1]
      exact h3 m (by simp)
    obtain ⟨r, hr, hrc, hrl⟩ := appendMany_inv len c ms
      { self with
        inner := (Matrix.chunks m 1).foldl (fun inn ch => applyChunk ch inn)
          self.inner }
      h1 (foldl_applyChunk_mem_length len _ _ h2) (fun m' hm' => h3 m' (by simp [hm']))
    refine ⟨r, ?_, hrc, hrl⟩
    rw [MatrixFixed.appendMany, List.foldlM_cons, MatrixFixed.append_eq_some self m hch]
    exact hr

/-! ## C5: the ring buffer length invariant -/

/-- C5: for every channel count `c ≥ 1` and ring length `len ≥ 1`, after
constructing `MatrixFixed::new(len, c)` and appending any finite sequence
of snapshots each having `c` channels, every append succeeds and every
channel sequence of the ring buffer has length exactly `len`. -/
theorem c5_ring_length_invariant (α : Type) [Inhabited α] (len c : ℕ)
    (hlen : 1 ≤ len) (hc : 1 ≤ c) (ms : List (Matrix α))
    (hms : ∀ m ∈ ms, Matrix.channel m = c) :
    ∃ r, (MatrixFixed.new α len c).appendMany ms = some r ∧
      ∀ q ∈ r.inner, q.length = len := by
  obtain ⟨r, hr, _, hrl⟩ := appendMany_inv len c ms (MatrixFixed.new α len c) rfl
    (fun q hq => by
      rw [List.eq_of_mem_replicate hq]
      exact List.length_replicate len default)
    hms
  exact ⟨r, hr, hrl⟩

/-- C5, witness: ring of length 2, one channel, one appended snapshot. -/
theorem c5_witness :
    ∃ r, (MatrixFixed.new ℤ 2 1).appendMany [[[5]]] = some r ∧
      ∀ q ∈ r.inner, q.length = 2 :=
  c5_ring_length_invariant ℤ 2 1 (by decide) (by decide) [[[5]]] (by decide)

/-! ## Lemmas: per-channel net effect of `MatrixFixed::append` -/

theorem applyNews_nil_rows [Inhabited α] :
    ∀ (m inner : List (List α)), (∀ r ∈ m, r = []) → applyNews m inner = inner
  | [], inner => fun _ => rfl
  | r :: ms, [] => fun _ => rfl
  | r :: ms, q :: qs => fun h => by
    have hr : r = [] := h r (by simp)
    subst hr
    simp only [applyNews, List.append_nil, List.length_nil, List.drop_zero]
    rw [applyNews_nil_rows ms qs (fun u hu => h u (by simp [hu]))]

theorem drop_succ_eq_tail_drop (c : List α) (i : ℕ) : c.drop (i + 1) = c.tail.drop i := by
  cases c <;> simp

theorem tail_append_of_ne_nil (A B : List α) (h : A ≠ []) :
    (A ++ B).tail = A.tail ++ B := by
  cases A with
  | nil => exact absurd rfl h
  | cons a as => simp

/-- Dripping the heads first (what one `chunks(1)` item does) and then the
tails is the same as feeding each channel its whole row. -/
theorem applyNews_tail_step [Inhabited α] :
    ∀ (m : Matrix α) (inner : List (List α)), (∀ r ∈ m, r ≠ []) →
      applyNews (m.map List.tail)
        (applyChunk (m.map (fun r => r.take 1)) inner) = applyNews m inner
  | [], inner => fun _ => rfl
  | r :: ms, [] => fun h => by
    simp only [List.map_cons, applyChunk, applyNews]
  | r :: ms, q :: qs => fun h => by
    obtain ⟨x, xs, rfl⟩ : ∃ x xs, r = x :: xs := by
      cases r with
      | nil => exact absurd rfl (h [] (by simp))
      | cons a as => exact ⟨a, as, rfl⟩
    simp only [List.map_cons, applyChunk, applyNews, List.tail_cons]
    congr 1
    · -- the head channel: push x then drop the head, then feed xs, equals
      -- feeding x :: xs and dropping (xs.length + 1) from the front
      show (pushEvict q (((x :: xs).take 1).headD default) ++ xs).drop xs.length
          = (q ++ x :: xs).drop (x :: xs).length
      have hx : ((x :: xs).take 1).headD default = x := by simp
      rw [hx]
      show ((q ++ [x]).tail ++ xs).drop xs.length = (q ++ x :: xs).drop (x :: xs).length
      rw [← tail_append_of_ne_nil (q ++ [x]) xs (by simp), List.append_assoc,
        List.singleton_append, List.length_cons, ← List.drop_one, List.drop_drop]
      congr 1
      omega
    · exact applyNews_tail_step ms qs (fun u hu => h u (by simp [hu]))

/-- Folding the `chunks(1)` items in order over the channels equals the
per-channel net effect `applyNews`, for a snapshot whose rows all have
length `k` (closed-form version, by induction on `k`). -/
theorem foldl_chunkForm [Inhabited α] :
    ∀ (k : ℕ) (m : Matrix α) (inner : List (List α)), (∀ r ∈ m, r.length = k) →
      ((List.range k).map (fun i => m.map (fun c => (c.drop i).take 1))).foldl
        (fun inn ch => applyChunk ch inn) inner
      = applyNews m inner := by
  intro k
  induction k with
  | zero =>
    intro m inner h
    rw [applyNews_nil_rows _ _ (fun r hr => List.length_eq_zero.mp (h r hr))]
    rfl
  | succ k ih =>
    intro m inner hrows
    have hne : ∀ r ∈ m, r ≠ [] := fun r hr h0 => by
      have hl := hrows r hr
      rw [h0] at hl
      simp at hl
    rw [List.range_succ_eq_map]
    simp only [List.map_cons, List.map_map, List.foldl_cons, List.drop_zero]
    have hitem : ((fun i => m.map (fun c => (c.drop i).take 1)) ∘ Nat.succ)
        = fun i => (m.map List.tail).map (fun c => (c.drop i).take 1) := by
      funext i
      simp only [Function.comp, List.map_map]
      congr 1
      funext c
      simp only [Function.comp]
      rw [show i.succ = i + 1 from rfl, drop_succ_eq_tail_drop]
    have htails : ∀ r ∈ m.map List.tail, r.length = k := by
      intro r hr
      simp only [List.mem_map] at hr
      obtain ⟨u, hu, rfl⟩ := hr
      have hl := hrows u hu
      cases u with
      | nil => simp at hl
      | cons a as => simpa using hl
    rw [hitem, ih (m.map List.tail) _ htails, applyNews_tail_step m inner hne]

/-- The per-chunk loop of `MatrixFixed::append` (iterating
`matrix.chunks(1)`) equals the per-channel net effect `applyNews` when all
rows of the snapshot have equal length. -/
theorem fold_chunks_applyNews [Inhabited α] (k : ℕ) (m : Matrix α)
    (inner : List (List α)) (hrows : ∀ r ∈ m, r.length = k) :
    (Matrix.chunks m 1).foldl (fun inn ch => applyChunk ch inn) inner
      = applyNews m inner := by
  cases m with
  | nil => rfl
  | cons c cs =>
    rw [Matrix.chunks_closed (c :: cs) 1 k one_ne_zero (by simp) hrows]
    have hfun : (fun i => (c :: cs).map (fun u => (rustChunks 1 u).getD i []))
        = fun i => (c :: cs).map (fun u => (u.drop i).take 1) := by
      funext i
      congr 1
      funext u
      rw [rustChunks_getD 1 one_ne_zero, one_mul]
    rw [show (k + 1 - 1) / 1 = k by simp, hfun]
    exact foldl_chunkForm k (c :: cs) inner hrows

theorem applyNews_getD [Inhabited α] :
    ∀ (m inner : List (List α)) (j : ℕ), j < m.length → j < inner.length →
      (applyNews m inner).getD j [] =
        ((inner.getD j []) ++ (m.getD j [])).drop (m.getD j []).length
  | [], _, j => by
    intro h _
    simp at h
  | _ :: _, [], j => by
    intro _ h
    simp at h
  | news :: ms, q :: qs, 0 => by
    intro _ _
    simp [applyNews]
  | news :: ms, q :: qs, j + 1 => by
    intro h1 h2
    simp only [applyNews, List.getD_cons_succ]
    exact applyNews_getD ms qs j (by simpa using h1) (by simpa using h2)

/-! ## C6: FIFO order of `MatrixFixed::append` -/

/-- C6: appending a snapshot whose rows all have length `k ≤ len` to a
ring buffer whose channel `j` holds `[a_1 … a_len]` leaves that channel
holding `[a_(k+1) … a_len, new_1 … new_k]`: samples are fed one at a time
in arrival order, each push-back paired with a pop-front eviction. -/
theorem c6_append_fifo (α : Type) [Inhabited α] (self : MatrixFixed α)
    (matrix : Matrix α) (len k : ℕ)
    (hch : Matrix.channel matrix = self.channel)
    (hinlen : self.inner.length = self.channel)
    (hrows : ∀ r ∈ matrix, r.length = k)
    (hq : ∀ q ∈ self.inner, q.length = len)
    (hk : k ≤ len) :
    ∃ r, self.append matrix = some r ∧
      ∀ j, j < self.channel →
        r.inner.getD j [] = (self.inner.getD j []).drop k ++ matrix.getD j [] := by
  refine ⟨_, MatrixFixed.append_eq_some self matrix hch, ?_⟩
  intro j hj
  simp only
  rw [fold_chunks_applyNews k matrix self.inner hrows]
  have hjm : j < matrix.length := by
    have : Matrix.channel matrix = matrix.length := rfl
    omega
  have hji : j < self.inner.length := by omega
  rw [applyNews_getD matrix self.inner j hjm hji]
  have hnews : (matrix.getD j []).length = k := by
    refine hrows _ ?_
    rw [List.getD_eq_getElem _ _ hjm]
    exact List.getElem_mem hjm
  have hqlen : (self.inner.getD j []).length = len := by
    refine hq _ ?_
    rw [List.getD_eq_getElem _ _ hji]
    exact List.getElem_mem hji
  rw [hnews, List.drop_append_of_le_length (by omega)]

/-- C6, witness: ring channel `[0, 0]`, one new sample `7`: the channel
becomes `[0, 7]`. -/
theorem c6_witness :
    ∃ r, (MatrixFixed.new ℤ 2 1).append [[7]] = some r ∧
      ∀ j, j < (MatrixFixed.new ℤ 2 1).channel →
        r.inner.getD j [] =
          ((MatrixFixed.new ℤ 2 1).inner.getD j []).drop 1 ++
            ([[7]] : Matrix ℤ).getD j [] :=
  c6_append_fifo ℤ (MatrixFixed.new ℤ 2 1) [[7]] 2 1 (by decide) (by decide)
    (by decide) (by decide) (by decide)

/-! ## C7: channel-count mismatch fails fast -/

/-- C7: `MatrixFixed::append` panics (modelled as `none`) whenever the
snapshot's channel count differs from the ring buffer's, and in that case
no channel sequence is modified — the assertion fires before the loop
touches any state. -/
theorem c7_append_mismatch (α : Type) [Inhabited α] (self : MatrixFixed α)
    (matrix : Matrix α) (h : Matrix.channel matrix ≠ self.channel) :
    self.append matrix = none := by
  simp [MatrixFixed.append, h]

/-- C7, witness: a one-channel snapshot into a two-channel ring buffer. -/
theorem c7_witness : (MatrixFixed.new ℤ 2 2).append [[1]] = none :=
  c7_append_mismatch ℤ (MatrixFixed.new ℤ 2 2) [[1]] (by decide)

/-! ## C2: the rolling spectral buffer -/

theorem append_spectrum_length :
    ∀ (datas buf : List α), (append_spectrum buf datas).length = buf.length
  | [], buf => rfl
  | d :: ds, buf => by
    rw [show append_spectrum buf (d :: ds) = append_spectrum (pushEvict buf d) ds
        from rfl,
      append_spectrum_length ds (pushEvict buf d), pushEvict_length]

/-- C2, the code at the failing input: `connect_inner` builds the rolling
buffer with `VecDeque::with_capacity(FFT_SIZE)`, which allocates capacity
but stores nothing, so the buffer starts at length 0 — not zero-filled to
`FFT_SIZE = 8192` as claimed — and since `append_spectrum` pairs every
`push_back` with a `pop_front` it preserves whatever length the buffer
has, keeping it 0 forever. -/
theorem c2_spectrum_buffer_bug :
    initial_spectrum_data.length = 0 ∧
    initial_spectrum_data.length ≠ FFT_SIZE ∧
    (∀ (buf datas : List ℚ), (append_spectrum buf datas).length = buf.length) ∧
    (append_spectrum initial_spectrum_data [1, 2, 3]).length = 0 := by
  refine ⟨rfl, by decide, fun buf datas => append_spectrum_length datas buf, ?_⟩
  rw [append_spectrum_length [1, 2, 3] initial_spectrum_data]
  rfl

/-! ## C3: no `Spectrum` event is ever emitted -/

/-- C3, the code at the failing input: the process callback sends one
`DataNew` event per `chunks(80)` item and nothing else — `send_spectrum`
is never called, so no batch ever produces a `Spectrum` event, contrary to
the claim that each buffer-updating batch emits one. -/
theorem c3_no_spectrum_event (buf : List ℚ) (m : Matrix ℚ) (l : List ℚ) :
    PwEvent.Spectrum l ∉ (processStep buf m).2 := by
  simp [processStep]

/-! ## C4: events observed by the consumer after a connection failure -/

/-- C4, counterexample: after a connection failure the capture thread
sends one `PwErr` and exits; the relay forwards it and then, observing the
closed channel, sends a second `PwErr`.  The consumer-facing sequence is
`[PwErr, PwErr]` — not exactly one `StreamFailed` event. -/
theorem c4_counterexample : ¬ (bridge connectFailureEvents).length = 1 := by
  decide

/-- C4, amended: when the initial connection/registration fails, the
consumer-facing sequence consists of exactly two `PwErr` events — the
producer's failure event followed by the relay's channel-closed event —
and no further events follow them. -/
theorem c4_two_pwerr :
    bridge connectFailureEvents = [PwEvent.PwErr, PwEvent.PwErr] := rfl

/-! ## C8: the Blackman–Harris window -/

open Real in
/-- C8: `apply_blackman_harris` is a no-op on blocks of length `n ≤ 1`,
and for `n > 1` multiplies sample `i` by the four-term cosine window with
coefficients `0.35875, 0.48829, 0.14128, 0.01168` at `k = i / (n - 1)`. -/
theorem c8_window (block : List ℝ) :
    (block.length ≤ 1 → apply_blackman_harris block = block) ∧
    (1 < block.length →
      ∀ (i : ℕ), i < block.length →
        (apply_blackman_harris block).getD i 0 =
          block.getD i 0 *
            (0.35875 - 0.48829 * Real.cos (2 * π * ((i : ℝ) / ((block.length : ℝ) - 1)))
              + 0.14128 * Real.cos (4 * π * ((i : ℝ) / ((block.length : ℝ) - 1)))
              - 0.01168 * Real.cos (6 * π * ((i : ℝ) / ((block.length : ℝ) - 1))))) := by
  constructor
  · intro h
    unfold apply_blackman_harris
    have h0 : block.length - 1 = 0 := by omega
    rw [h0]
    simp
  · intro h i hi
    unfold apply_blackman_harris
    have hpos : (0 : ℝ) < ((block.length - 1 : ℕ) : ℝ) := by
      have h1 : 0 < block.length - 1 := by omega
      exact_mod_cast h1
    simp only
    rw [if_neg (not_le.mpr hpos)]
    have hlen : i < (block.mapIdx fun i x =>
        x * windowWeight ((i : ℝ) / ((block.length - 1 : ℕ) : ℝ))).length := by
      rw [List.length_mapIdx]
      exact hi
    rw [List.getD_eq_getElem _ _ hlen]
    have h2 := List.get_mapIdx block
      (fun i x => x * windowWeight ((i : ℝ) / ((block.length - 1 : ℕ) : ℝ))) i hi hlen
    simp only [List.get_eq_getElem] at h2
    rw [h2, ← List.getD_eq_getElem block 0 hi]
    have hcast : ((block.length - 1 : ℕ) : ℝ) = (block.length : ℝ) - 1 := by
      push_cast [Nat.cast_sub (show 1 ≤ block.length by omega)]
      ring
    rw [hcast]
    unfold windowWeight
    ring

/-- C8, witness: the empty block is returned unchanged. -/
theorem c8_witness : apply_blackman_harris [] = [] :=
  (c8_window []).1 (by simp)

/-! ## C10: bounds of the deinterleave loop -/

theorem stepBy_length (step : ℕ) (hs : step ≠ 0) (start stop : ℕ) :
    (stepBy start stop step).length = (stop - start + step - 1) / step := by
  rw [stepBy]
  split
  · rename_i h
    rw [List.length_cons, stepBy_length step hs (start + step) stop]
    have e : stop - (start + step) = stop - start - step := by omega
    rw [e]
    exact ceil_div_step step (stop - start) hs (by omega)
  · rename_i h
    have e : stop - start = 0 := by omega
    rw [e]
    simp [Nat.div_eq_of_lt (show step - 1 < step by omega)]
termination_by stop - start
decreasing_by omega

theorem stepBy_length_dvd (n ch c : ℕ) (hch : ch ≠ 0) (hc : c < ch)
    (hmod : n % ch = 0) : (stepBy c n ch).length = n / ch := by
  rw [stepBy_length ch hch c n]
  have hpos : 0 < ch := Nat.pos_of_ne_zero hch
  have hqL : n = ch * (n / ch) := by
    have h := (Nat.div_add_mod n ch).symm
    generalize ch * (n / ch) = A at h ⊢
    omega
  rcases Nat.eq_zero_or_pos (n / ch) with h0 | h0
  · have hn : n = 0 := by rw [hqL, h0, Nat.mul_zero]
    subst hn
    simp [Nat.div_eq_of_lt (show ch - 1 < ch by omega)]
  · have hcn : ch ≤ n := by
      calc ch = ch * 1 := (Nat.mul_one ch).symm
        _ ≤ ch * (n / ch) := Nat.mul_le_mul_left ch h0
        _ = n := hqL.symm
    have e2 : ch * (n / ch) = ch * (n / ch - 1) + ch := by
      rcases Nat.exists_eq_add_of_le h0 with ⟨p, hp⟩
      rw [hp]
      simp [Nat.mul_succ, Nat.mul_add, Nat.add_comm]
    have e1 : n - c + ch - 1 = ch * (n / ch - 1) + (ch - 1 - c) + ch := by
      have hn' : n = ch * (n / ch - 1) + ch := by rw [← e2]; exact hqL
      generalize ch * (n / ch - 1) = A at hn' ⊢
      omega
    rw [e1, Nat.add_div_right _ hpos, Nat.mul_add_div hpos,
      Nat.div_eq_of_lt (show ch - 1 - c < ch by omega), Nat.add_zero]
    omega

theorem stepBy_overrun_of_mod_ne (n ch : ℕ) (hch : ch ≠ 0) (hmod : n % ch ≠ 0) :
    n / ch < (stepBy 0 n ch).length := by
  rw [stepBy_length ch hch 0 n, Nat.sub_zero, ceil_div_of_mod_ne n ch hch hmod]
  omega

/-- C10: the deinterleave loop writes, for channel `c`, one slot per index
of `(c..n_samples).step_by(n_channels)` into a row allocated with
`n_samples / n_channels` slots (and that division panics for
`n_channels = 0`).  Given `n_channels ≥ 1`, all channels' writes stay in
bounds iff `n_samples` is an exact multiple of `n_channels`; under that
precondition every channel receives exactly `n_samples / n_channels`
samples, and otherwise some channel's index exceeds its row length. -/
theorem c10_deinterleave_bounds (n ch : ℕ) (hch : 1 ≤ ch) :
    ((∀ c, c < ch → (stepBy c n ch).length ≤ n / ch) ↔ n % ch = 0) ∧
    (n % ch = 0 → ∀ c, c < ch → (stepBy c n ch).length = n / ch) := by
  have hch' : ch ≠ 0 := by omega
  constructor
  · constructor
    · intro hall
      by_contra hmod
      have h1 := stepBy_overrun_of_mod_ne n ch hch' hmod
      have h2 := hall 0 (by omega)
      omega
    · intro hmod c hc
      rw [stepBy_length_dvd n ch c hch' hc hmod]
  · intro hmod c hc
    exact stepBy_length_dvd n ch c hch' hc hmod

/-- C10, witness: 4 samples over 2 channels — channel 0 receives exactly
`4 / 2 = 2` samples. -/
theorem c10_witness : (stepBy 0 4 2).length = 4 / 2 :=
  (c10_deinterleave_bounds 4 2 (by decide)).2 (by decide) 0 (by decide)

end Backend
